import Mathlib

/-!
# Verification of the Black-Scholes pricing core of `options.py`

This file gives a shallow embedding, over the real numbers, of the two
algorithmic functions of the repository:

* `black_scholes` (options.py, lines 35-47): the Black-Scholes closed-form
  price of a European call or put option, raising `ValueError` for an
  unrecognized option type (modelled with `Except`);
* `generate_heatmap` (options.py, lines 50-55): the grid of prices obtained
  by sweeping the spot price and the volatility over two axes.  The Python
  function goes on to render this grid as a matplotlib figure; the grid
  `prices` is its algorithmic content and is what we embed.

Python floats are modelled as real numbers, `scipy.stats.norm.cdf` as the
cumulative distribution function of the standard normal distribution
(defined below as the integral of its density), and `raise` as returning
`Except.error`.  Division by zero and the logarithm of a non-positive
number are totalized the Lean way (`x / 0 = 0`, `Real.log x = Real.log |x|`);
no theorem below depends on these junk values.
-/

open MeasureTheory Filter Set

/-- Density of the standard normal distribution, the `norm` distribution of
`scipy.stats` used in `options.py`. -/
noncomputable def normPdf (t : ℝ) : ℝ :=
  (Real.sqrt (2 * Real.pi))⁻¹ * Real.exp (-(t ^ 2) / 2)

/-- The standard normal cumulative distribution function, `norm.cdf` in
`options.py`: the integral of the density over `(-∞, x]`. -/
noncomputable def normCdf (x : ℝ) : ℝ := ∫ t in Set.Iic x, normPdf t

/-- `d1` as computed on line 37 of `options.py`. -/
noncomputable def d1 (S K T r sigma : ℝ) : ℝ :=
  (Real.log (S / K) + (r + 0.5 * sigma ^ 2) * T) / (sigma * Real.sqrt T)

/-- `d2` as computed on line 38 of `options.py`. -/
noncomputable def d2 (S K T r sigma : ℝ) : ℝ :=
  d1 S K T r sigma - sigma * Real.sqrt T

/-- Value of the `call` branch of `black_scholes` (options.py, line 41). -/
noncomputable def bs_call (S K T r sigma : ℝ) : ℝ :=
  S * normCdf (d1 S K T r sigma) -
    K * Real.exp (-r * T) * normCdf (d2 S K T r sigma)

/-- Value of the `put` branch of `black_scholes` (options.py, line 43). -/
noncomputable def bs_put (S K T r sigma : ℝ) : ℝ :=
  K * Real.exp (-r * T) * normCdf (-(d2 S K T r sigma)) -
    S * normCdf (-(d1 S K T r sigma))

/-- Shallow embedding of `black_scholes` (options.py, lines 35-47).  The
function computes `d1`, `d2` and then branches on the `option_type` string,
raising `ValueError` for an unrecognized type; the `raise` is modelled by
`Except.error`.  There is no validation of `S`, `K`, `T`, `r`, `sigma`. -/
noncomputable def black_scholes (S K T r sigma : ℝ) (option_type : String) :
    Except String ℝ :=
  if option_type = "call" then Except.ok (bs_call S K T r sigma)
  else if option_type = "put" then Except.ok (bs_put S K T r sigma)
  else Except.error ("Option type must be call or put")

/-- Shallow embedding of the price grid computed by `generate_heatmap`
(options.py, lines 50-55): `prices[i, j] = black_scholes(spot, K, T, r, vol,
option_type)` for `vol = vol_range[i]`, `spot = spot_range[j]`.  An exception
raised by `black_scholes` propagates out of the loop, which `List.mapM` over
`Except` models exactly; the rest of the Python function only renders the
grid.  The parameter `S` is received but, like in the source, never read by
the pricing loop. -/
noncomputable def generate_heatmap (S K T r sigma : ℝ)
    (spot_range vol_range : List ℝ) (option_type : String) :
    Except String (List (List ℝ)) :=
  vol_range.mapM (fun vol =>
    spot_range.mapM (fun spot => black_scholes spot K T r vol option_type))

/-- `d1` transcribed from §4.1 of the specification:
`d1 = (ln(S/K) + (r + 0.5·σ²)·T) / (σ·√T)`. -/
noncomputable def spec_d1 (S K T r sigma : ℝ) : ℝ :=
  (Real.log (S / K) + (r + 0.5 * sigma ^ 2) * T) / (sigma * Real.sqrt T)

/-- `d2` transcribed from §4.1 of the specification: `d2 = d1 − σ·√T`. -/
noncomputable def spec_d2 (S K T r sigma : ℝ) : ℝ :=
  spec_d1 S K T r sigma - sigma * Real.sqrt T

/-- The call price transcribed from §4.1 of the specification:
`call = S·Φ(d1) − K·e^(−r·T)·Φ(d2)`. -/
noncomputable def spec_call_price (S K T r sigma : ℝ) : ℝ :=
  S * normCdf (spec_d1 S K T r sigma) -
    K * Real.exp (-r * T) * normCdf (spec_d2 S K T r sigma)

/-- The put price transcribed from §4.1 of the specification:
`put = K·e^(−r·T)·Φ(−d2) − S·Φ(−d1)`. -/
noncomputable def spec_put_price (S K T r sigma : ℝ) : ℝ :=
  K * Real.exp (-r * T) * normCdf (-(spec_d2 S K T r sigma)) -
    S * normCdf (-(spec_d1 S K T r sigma))

/-- The auxiliary function behind all analytic properties of the price: with
`a = σ·√T` and `m = ln(S/K) + r·T`, the call price is
`K·e^(−r·T) · bsAux a m`. -/
noncomputable def bsAux (a m : ℝ) : ℝ :=
  Real.exp m * normCdf (m / a + a / 2) - normCdf (m / a - a / 2)

section Basic

lemma black_scholes_call (S K T r sigma : ℝ) :
    black_scholes S K T r sigma "call" = Except.ok (bs_call S K T r sigma) :=
  rfl

lemma black_scholes_put (S K T r sigma : ℝ) :
    black_scholes S K T r sigma "put" = Except.ok (bs_put S K T r sigma) := by
  simp [black_scholes]

end Basic

/-- C1.  For every valid input (`S > 0`, `K > 0`, `T > 0`, `σ > 0`, `r ≥ 0`),
`black_scholes` returns exactly the Black-Scholes closed form of the
specification: `S·Φ(d1) − K·e^(−r·T)·Φ(d2)` for a call and
`K·e^(−r·T)·Φ(−d2) − S·Φ(−d1)` for a put, with `d1`, `d2` as in §4.1. -/
theorem price_matches_spec_formula (S K T r sigma : ℝ)
    (hS : 0 < S) (hK : 0 < K) (hT : 0 < T) (hsigma : 0 < sigma) (hr : 0 ≤ r) :
    black_scholes S K T r sigma "call" =
      Except.ok (spec_call_price S K T r sigma) ∧
    black_scholes S K T r sigma "put" =
      Except.ok (spec_put_price S K T r sigma) := by
  constructor
  · rw [black_scholes_call]
    simp [bs_call, spec_call_price, spec_d1, spec_d2, d1, d2]
  · rw [black_scholes_put]
    simp [bs_put, spec_put_price, spec_d1, spec_d2, d1, d2]

/-- Witness for C1 at `S = K = T = σ = 1`, `r = 0`. -/
theorem price_matches_spec_formula_witness :
    black_scholes 1 1 1 0 1 "call" = Except.ok (spec_call_price 1 1 1 0 1) ∧
    black_scholes 1 1 1 0 1 "put" = Except.ok (spec_put_price 1 1 1 0 1) :=
  price_matches_spec_formula 1 1 1 0 1 (by norm_num) (by norm_num)
    (by norm_num) (by norm_num) (by norm_num)

/-- C2, counterexample.  At the very input named by the specification's error
case, `price(S=-1, K=100, T=1, r=0.05, σ=0.2, CALL)`, the code does not fail:
`black_scholes` contains no validation of its numeric arguments, so the call
branch returns a value. -/
theorem price_negative_spot_no_error :
    (black_scholes (-1) 100 1 0.05 0.2 "call").isOk = true := by
  rw [black_scholes_call]
  rfl

/-- C2, amended.  `black_scholes` never validates `S`, `K`, `T`, `r`, `σ`:
for every numeric input, including non-positive ones, it returns a value (in
floating point a NaN or a junk number) rather than raising, as long as the
option type is recognized. -/
theorem price_no_domain_validation (S K T r sigma : ℝ) :
    (black_scholes S K T r sigma "call").isOk = true ∧
    (black_scholes S K T r sigma "put").isOk = true := by
  rw [black_scholes_call, black_scholes_put]
  exact ⟨rfl, rfl⟩

/-- C8.  `black_scholes` fails exactly when the option type is neither
`"call"` nor `"put"`, whatever the numeric arguments; and the `ValueError`
on line 45 of options.py is the only error it ever signals. -/
theorem price_error_iff_bad_option_type (S K T r sigma : ℝ) (ot : String) :
    ((∃ e, black_scholes S K T r sigma ot = Except.error e) ↔
      ¬(ot = "call" ∨ ot = "put")) ∧
    ∀ e, black_scholes S K T r sigma ot = Except.error e →
      e = "Option type must be call or put" := by
  unfold black_scholes
  split_ifs with h1 h2 <;> simp_all

section Grid

lemma mapM_ok_of_forall_ok {α β : Type} (f : α → Except String β) (g : α → β)
    (h : ∀ a, f a = Except.ok (g a)) :
    ∀ l : List α, l.mapM f = Except.ok (l.map g) := by
  intro l
  induction l with
  | nil => rw [List.mapM_nil]; rfl
  | cons a t ih => rw [List.mapM_cons, h a, ih]; rfl

lemma generate_heatmap_ok (S K T r sigma : ℝ) (spots vols : List ℝ)
    (ot : String) (hot : ot = "call" ∨ ot = "put") :
    generate_heatmap S K T r sigma spots vols ot =
      Except.ok (vols.map (fun vol => spots.map (fun spot =>
        if ot = "call" then bs_call spot K T r vol else bs_put spot K T r vol))) := by
  unfold generate_heatmap
  apply mapM_ok_of_forall_ok
  intro vol
  apply mapM_ok_of_forall_ok
  intro spot
  rcases hot with h | h <;> subst h
  · simp [black_scholes_call]
  · simp [black_scholes_put]

end Grid

/-- C3.  For a base parameter set and axes inside the valid domain, the
surface is a grid with one row per volatility-axis entry and one column per
spot-axis entry, and the cell at row `i`, column `j` holds exactly the value
`black_scholes` returns for the base parameters with the spot price replaced
by `spots[j]` and the volatility replaced by `vols[i]` (strike, maturity and
rate unchanged); rows follow the volatility axis order and columns the spot
axis order. -/
theorem surface_shape_and_cells (S K T r sigma : ℝ) (spots vols : List ℝ)
    (hS : 0 < S) (hK : 0 < K) (hT : 0 < T) (hsigma : 0 < sigma) (hr : 0 ≤ r)
    (hspots : ∀ x ∈ spots, 0 < x) (hvols : ∀ x ∈ vols, 0 < x)
    (ot : String) (hot : ot = "call" ∨ ot = "put") :
    ∃ grid : List (List ℝ),
      generate_heatmap S K T r sigma spots vols ot = Except.ok grid ∧
      grid.length = vols.length ∧
      (∀ row ∈ grid, row.length = spots.length) ∧
      ∀ (i j : ℕ) (hi : i < grid.length)
        (hj : j < (grid.get ⟨i, hi⟩).length)
        (hi2 : i < vols.length) (hj2 : j < spots.length),
        black_scholes (spots.get ⟨j, hj2⟩) K T r (vols.get ⟨i, hi2⟩) ot =
          Except.ok ((grid.get ⟨i, hi⟩).get ⟨j, hj⟩) := by
  refine ⟨_, generate_heatmap_ok S K T r sigma spots vols ot hot, by simp,
    by simp, ?_⟩
  intro i j hi hj hi2 hj2
  rcases hot with h | h <;> subst h
  · rw [black_scholes_call]
    simp [List.get_eq_getElem]
  · rw [black_scholes_put]
    simp [List.get_eq_getElem]

/-- Witness for C3 with base parameters `S = K = T = σ = 1`, `r = 0` and the
axes `spots = [1, 2]`, `vols = [1]`. -/
theorem surface_shape_and_cells_witness :
    ∃ grid : List (List ℝ),
      generate_heatmap 1 1 1 0 1 [1, 2] [1] "call" = Except.ok grid ∧
      grid.length = ([1] : List ℝ).length ∧
      (∀ row ∈ grid, row.length = ([1, 2] : List ℝ).length) ∧
      ∀ (i j : ℕ) (hi : i < grid.length)
        (hj : j < (grid.get ⟨i, hi⟩).length)
        (hi2 : i < ([1] : List ℝ).length)
        (hj2 : j < ([1, 2] : List ℝ).length),
        black_scholes (([1, 2] : List ℝ).get ⟨j, hj2⟩) 1 1 0
            (([1] : List ℝ).get ⟨i, hi2⟩) "call" =
          Except.ok ((grid.get ⟨i, hi⟩).get ⟨j, hj⟩) :=
  surface_shape_and_cells 1 1 1 0 1 [1, 2] [1] (by norm_num) (by norm_num)
    (by norm_num) (by norm_num) (by norm_num) (by norm_num) (by norm_num)
    "call" (Or.inl rfl)

/-- C4, counterexample.  With a volatility axis containing the invalid value
`-1`, the surface generator does not fail: it returns a complete grid, since
`black_scholes` validates nothing. -/
theorem surface_invalid_axis_no_error :
    (generate_heatmap 100 100 1 0.05 0.2 [100] [-1] "call").isOk = true := by
  rw [generate_heatmap_ok 100 100 1 0.05 0.2 [100] [-1] "call" (Or.inl rfl)]
  rfl

/-- C4, amended.  The surface generator never checks the pricer's numeric
preconditions: even when an axis contains a value `≤ 0`, it raises no error
and returns a complete grid; only an unrecognized option type makes it
fail. -/
theorem surface_no_axis_validation (S K T r sigma x : ℝ) (hx : x ≤ 0)
    (spots vols : List ℝ) (hmem : x ∈ vols) (ot : String)
    (hot : ot = "call" ∨ ot = "put") :
    (generate_heatmap S K T r sigma spots vols ot).isOk = true := by
  rw [generate_heatmap_ok S K T r sigma spots vols ot hot]
  rfl

/-- Witness for C4 (amended) at a volatility axis containing `-1`. -/
theorem surface_no_axis_validation_witness :
    (generate_heatmap 100 100 1 0.05 0.2 [100] [-1, 0.3] "put").isOk = true :=
  surface_no_axis_validation 100 100 1 0.05 0.2 (-1) (by norm_num) [100]
    [-1, 0.3] (by norm_num) "put" (Or.inr rfl)

/-- C9.  The surface generator accepts axes of any finite length (length 0 or
1 included), in any order and spacing: it never checks the
`PriceSurfaceAxis` constraints, and for any axes it returns a grid with one
row per volatility-axis entry, each row with one cell per spot-axis
entry. -/
theorem surface_any_axes (S K T r sigma : ℝ) (spots vols : List ℝ)
    (ot : String) (hot : ot = "call" ∨ ot = "put") :
    ∃ grid : List (List ℝ),
      generate_heatmap S K T r sigma spots vols ot = Except.ok grid ∧
      grid.length = vols.length ∧
      ∀ row ∈ grid, row.length = spots.length := by
  exact ⟨_, generate_heatmap_ok S K T r sigma spots vols ot hot, by simp,
    by simp⟩

/-- Witness for C9 with an empty spot axis and an unsorted, unevenly spaced
volatility axis of length 3. -/
theorem surface_any_axes_witness :
    ∃ grid : List (List ℝ),
      generate_heatmap 1 1 1 0 1 [] [5, 3, 4.5] "call" = Except.ok grid ∧
      grid.length = ([5, 3, 4.5] : List ℝ).length ∧
      ∀ row ∈ grid, row.length = ([] : List ℝ).length :=
  surface_any_axes 1 1 1 0 1 [] [5, 3, 4.5] "call" (Or.inl rfl)

section NormCdf

lemma normPdf_eq_gaussianPDFReal :
    normPdf = ProbabilityTheory.gaussianPDFReal 0 1 := by
  funext t
  unfold normPdf ProbabilityTheory.gaussianPDFReal
  norm_num

lemma integrable_normPdf : Integrable normPdf := by
  rw [normPdf_eq_gaussianPDFReal]
  exact ProbabilityTheory.integrable_gaussianPDFReal 0 1

lemma integral_normPdf : ∫ t, normPdf t = 1 := by
  rw [normPdf_eq_gaussianPDFReal]
  exact ProbabilityTheory.integral_gaussianPDFReal_eq_one 0 (by norm_num)

lemma normPdf_nonneg (t : ℝ) : 0 ≤ normPdf t :=
  mul_nonneg (inv_nonneg.2 (Real.sqrt_nonneg _)) (Real.exp_pos _).le

lemma normPdf_neg (t : ℝ) : normPdf (-t) = normPdf t := by
  simp [normPdf]

lemma continuous_normPdf : Continuous normPdf := by
  unfold normPdf
  continuity

lemma normCdf_nonneg (x : ℝ) : 0 ≤ normCdf x :=
  setIntegral_nonneg measurableSet_Iic (fun t _ => normPdf_nonneg t)

lemma normCdf_add_neg (x : ℝ) : normCdf x + normCdf (-x) = 1 := by
  have h1 : normCdf (-x) = ∫ t in Set.Ioi x, normPdf t := by
    have h := integral_comp_neg_Iic (-x) normPdf
    simp only [normPdf_neg, neg_neg] at h
    rw [normCdf, h]
  have h2 : (∫ t in Set.Iic x, normPdf t) + ∫ t in Set.Ioi x, normPdf t = 1 := by
    have h3 := integral_add_compl (measurableSet_Iic (a := x)) integrable_normPdf
    rw [Set.compl_Iic] at h3
    rw [h3, integral_normPdf]
  rw [normCdf, h1]
  exact h2

lemma normCdf_le_one (x : ℝ) : normCdf x ≤ 1 := by
  have h1 := normCdf_add_neg x
  have h2 := normCdf_nonneg (-x)
  linarith

lemma normCdf_eq_add_intervalIntegral (x : ℝ) :
    normCdf x = normCdf 0 + ∫ t in (0 : ℝ)..x, normPdf t := by
  have h := intervalIntegral.integral_Iic_sub_Iic
    (integrable_normPdf.integrableOn (s := Set.Iic 0))
    (integrable_normPdf.integrableOn (s := Set.Iic x))
  rw [normCdf, normCdf]
  linarith

lemma hasDerivAt_normCdf (x : ℝ) : HasDerivAt normCdf (normPdf x) x := by
  have h : HasDerivAt (fun u => ∫ t in (0 : ℝ)..u, normPdf t) (normPdf x) x :=
    intervalIntegral.integral_hasDerivAt_right
      integrable_normPdf.intervalIntegrable
      (continuous_normPdf.stronglyMeasurableAtFilter volume (nhds x))
      continuous_normPdf.continuousAt
  have h2 : normCdf = fun u => normCdf 0 + ∫ t in (0 : ℝ)..u, normPdf t :=
    funext normCdf_eq_add_intervalIntegral
  rw [h2]
  exact h.const_add (normCdf 0)

lemma tendsto_normCdf_atTop : Tendsto normCdf atTop (nhds 1) := by
  have hint : IntegrableOn normPdf (⋃ x : ℝ, Set.Iic x) volume := by
    rw [Set.iUnion_Iic]
    exact integrable_normPdf.integrableOn
  have h := tendsto_setIntegral_of_monotone (μ := volume) (f := normPdf)
    (s := fun x : ℝ => Set.Iic x) (fun i => measurableSet_Iic)
    (fun i j hij => Set.Iic_subset_Iic.2 hij) hint
  rw [Set.iUnion_Iic] at h
  rw [MeasureTheory.setIntegral_univ, integral_normPdf] at h
  exact h

lemma tendsto_normCdf_atBot : Tendsto normCdf atBot (nhds 0) := by
  have h1 : Tendsto (fun x : ℝ => normCdf (-x)) atBot (nhds 1) :=
    tendsto_normCdf_atTop.comp tendsto_neg_atBot_atTop
  have h2 : Tendsto (fun x : ℝ => 1 - normCdf (-x)) atBot (nhds 0) := by
    have := tendsto_const_nhds (α := ℝ) (x := (1 : ℝ)) (f := atBot (α := ℝ))
    simpa using this.sub h1
  refine h2.congr (fun x => ?_)
  have := normCdf_add_neg x
  linarith

end NormCdf

section Aux

lemma normPdf_shift {a : ℝ} (ha : a ≠ 0) (m : ℝ) :
    normPdf (m / a - a / 2) = Real.exp m * normPdf (m / a + a / 2) := by
  unfold normPdf
  have h : -((m / a - a / 2) ^ 2) / 2 = m + -((m / a + a / 2) ^ 2) / 2 := by
    field_simp
    ring
  rw [h, Real.exp_add]
  ring

lemma hasDerivAt_bsAux {a : ℝ} (ha : a ≠ 0) (m : ℝ) :
    HasDerivAt (bsAux a) (Real.exp m * normCdf (m / a + a / 2)) m := by
  have h1 : HasDerivAt (fun x : ℝ => x / a + a / 2) (1 / a) m := by
    simpa using ((hasDerivAt_id m).div_const a).add_const (a / 2)
  have h2 : HasDerivAt (fun x : ℝ => x / a - a / 2) (1 / a) m := by
    simpa using ((hasDerivAt_id m).div_const a).sub_const (a / 2)
  have hphi1 : HasDerivAt (fun x : ℝ => normCdf (x / a + a / 2))
      (normPdf (m / a + a / 2) * (1 / a)) m :=
    (hasDerivAt_normCdf (m / a + a / 2)).comp m h1
  have hphi2 : HasDerivAt (fun x : ℝ => normCdf (x / a - a / 2))
      (normPdf (m / a - a / 2) * (1 / a)) m :=
    (hasDerivAt_normCdf (m / a - a / 2)).comp m h2
  have hmul : HasDerivAt (fun x : ℝ => Real.exp x * normCdf (x / a + a / 2))
      (Real.exp m * normCdf (m / a + a / 2) +
        Real.exp m * (normPdf (m / a + a / 2) * (1 / a))) m := by
    exact (Real.hasDerivAt_exp m).mul hphi1
  have hsub := hmul.sub hphi2
  have heq : Real.exp m * normCdf (m / a + a / 2) +
      Real.exp m * (normPdf (m / a + a / 2) * (1 / a)) -
      normPdf (m / a - a / 2) * (1 / a) =
      Real.exp m * normCdf (m / a + a / 2) := by
    rw [normPdf_shift ha]
    ring
  rw [heq] at hsub
  exact hsub

lemma monotone_bsAux {a : ℝ} (ha : a ≠ 0) : Monotone (bsAux a) :=
  monotone_of_deriv_nonneg
    (fun x => (hasDerivAt_bsAux ha x).differentiableAt)
    (fun x => by
      rw [(hasDerivAt_bsAux ha x).deriv]
      exact mul_nonneg (Real.exp_pos x).le (normCdf_nonneg _))

lemma antitone_bsAux_sub_exp {a : ℝ} (ha : a ≠ 0) :
    Antitone (fun m => bsAux a m - Real.exp m) := by
  apply antitone_of_deriv_nonpos
  · exact fun x =>
      ((hasDerivAt_bsAux ha x).sub (Real.hasDerivAt_exp x)).differentiableAt
  · intro x
    rw [((hasDerivAt_bsAux ha x).sub (Real.hasDerivAt_exp x)).deriv]
    have h1 : normCdf (x / a + a / 2) ≤ 1 := normCdf_le_one _
    nlinarith [Real.exp_pos x]

lemma tendsto_bsAux_atBot {a : ℝ} (ha : 0 < a) :
    Tendsto (bsAux a) atBot (nhds 0) := by
  have h1 : Tendsto (fun m : ℝ => Real.exp m * normCdf (m / a + a / 2))
      atBot (nhds 0) := by
    apply squeeze_zero
      (fun t => mul_nonneg (Real.exp_pos t).le (normCdf_nonneg _))
      (fun t => ?_) Real.tendsto_exp_atBot
    calc Real.exp t * normCdf (t / a + a / 2) ≤ Real.exp t * 1 :=
          mul_le_mul_of_nonneg_left (normCdf_le_one _) (Real.exp_pos t).le
      _ = Real.exp t := mul_one _
  have h2 : Tendsto (fun m : ℝ => m / a - a / 2) atBot atBot := by
    have hdiv : Tendsto (fun m : ℝ => m / a) atBot atBot :=
      Filter.Tendsto.atBot_div_const ha tendsto_id
    have := Filter.tendsto_atBot_add_const_right atBot (-(a / 2)) hdiv
    simpa [sub_eq_add_neg] using this
  have h3 : Tendsto (fun m : ℝ => normCdf (m / a - a / 2)) atBot (nhds 0) :=
    tendsto_normCdf_atBot.comp h2
  have := h1.sub h3
  simpa [bsAux] using this

lemma bsAux_nonneg {a : ℝ} (ha : 0 < a) (m : ℝ) : 0 ≤ bsAux a m := by
  apply le_of_tendsto (tendsto_bsAux_atBot ha)
  filter_upwards [Filter.eventually_le_atBot m] with t ht
  exact monotone_bsAux ha.ne' ht

end Aux

section Connect

lemma bs_parity (S K T r sigma : ℝ) :
    bs_call S K T r sigma - bs_put S K T r sigma =
      S - K * Real.exp (-r * T) := by
  have h1 := normCdf_add_neg (d1 S K T r sigma)
  have h2 := normCdf_add_neg (d2 S K T r sigma)
  unfold bs_call bs_put
  linear_combination S * h1 - K * Real.exp (-r * T) * h2

lemma K_exp_mul_exp (S K T r : ℝ) (hS : 0 < S) (hK : 0 < K) :
    K * Real.exp (-r * T) * Real.exp (Real.log (S / K) + r * T) = S := by
  have hK0 : K ≠ 0 := hK.ne'
  have h : -r * T + (Real.log (S / K) + r * T) = Real.log (S / K) := by ring
  rw [mul_assoc, ← Real.exp_add, h, Real.exp_log (div_pos hS hK)]
  field_simp

lemma d1_eq_aux (S K T r sigma : ℝ) (hT : 0 < T) (hsigma : 0 < sigma) :
    d1 S K T r sigma =
      (Real.log (S / K) + r * T) / (sigma * Real.sqrt T) +
        sigma * Real.sqrt T / 2 := by
  have ha : sigma * Real.sqrt T ≠ 0 :=
    (mul_pos hsigma (Real.sqrt_pos.2 hT)).ne'
  have hsq : Real.sqrt T ^ 2 = T := Real.sq_sqrt hT.le
  unfold d1
  field_simp
  linear_combination (-(sigma ^ 3 * Real.sqrt T)) * hsq

lemma d2_eq_aux (S K T r sigma : ℝ) (hT : 0 < T) (hsigma : 0 < sigma) :
    d2 S K T r sigma =
      (Real.log (S / K) + r * T) / (sigma * Real.sqrt T) -
        sigma * Real.sqrt T / 2 := by
  rw [d2, d1_eq_aux S K T r sigma hT hsigma]
  ring

lemma bs_call_eq_bsAux (S K T r sigma : ℝ) (hS : 0 < S) (hK : 0 < K)
    (hT : 0 < T) (hsigma : 0 < sigma) :
    bs_call S K T r sigma =
      K * Real.exp (-r * T) *
        bsAux (sigma * Real.sqrt T) (Real.log (S / K) + r * T) := by
  have hSe := K_exp_mul_exp S K T r hS hK
  unfold bs_call bsAux
  rw [d1_eq_aux S K T r sigma hT hsigma, d2_eq_aux S K T r sigma hT hsigma]
  linear_combination
    (-(normCdf ((Real.log (S / K) + r * T) / (sigma * Real.sqrt T) +
      sigma * Real.sqrt T / 2))) * hSe

lemma bs_put_eq (S K T r sigma : ℝ) (hS : 0 < S) (hK : 0 < K)
    (hT : 0 < T) (hsigma : 0 < sigma) :
    bs_put S K T r sigma =
      K * Real.exp (-r * T) *
        (bsAux (sigma * Real.sqrt T) (Real.log (S / K) + r * T) -
          Real.exp (Real.log (S / K) + r * T) + 1) := by
  have hpar := bs_parity S K T r sigma
  have hcall := bs_call_eq_bsAux S K T r sigma hS hK hT hsigma
  have hSe := K_exp_mul_exp S K T r hS hK
  linear_combination hcall + hSe - hpar

lemma bs_put_eq_bsAux (S K T r sigma : ℝ) (hS : 0 < S) (hK : 0 < K)
    (hT : 0 < T) (hsigma : 0 < sigma) :
    bs_put S K T r sigma =
      S * bsAux (sigma * Real.sqrt T) (-(Real.log (S / K) + r * T)) := by
  have hSe := K_exp_mul_exp S K T r hS hK
  have hee : Real.exp (Real.log (S / K) + r * T) *
      Real.exp (-(Real.log (S / K) + r * T)) = 1 := by
    have h0 : Real.log (S / K) + r * T + -(Real.log (S / K) + r * T) = 0 := by
      ring
    rw [← Real.exp_add, h0, Real.exp_zero]
  have harg1 : -(Real.log (S / K) + r * T) / (sigma * Real.sqrt T) +
      sigma * Real.sqrt T / 2 =
      -((Real.log (S / K) + r * T) / (sigma * Real.sqrt T) -
        sigma * Real.sqrt T / 2) := by ring
  have harg2 : -(Real.log (S / K) + r * T) / (sigma * Real.sqrt T) -
      sigma * Real.sqrt T / 2 =
      -((Real.log (S / K) + r * T) / (sigma * Real.sqrt T) +
        sigma * Real.sqrt T / 2) := by ring
  unfold bs_put bsAux
  rw [d1_eq_aux S K T r sigma hT hsigma, d2_eq_aux S K T r sigma hT hsigma,
    harg1, harg2]
  linear_combination
    (normCdf (-((Real.log (S / K) + r * T) / (sigma * Real.sqrt T) -
        sigma * Real.sqrt T / 2)) *
      Real.exp (-(Real.log (S / K) + r * T))) * hSe -
    (normCdf (-((Real.log (S / K) + r * T) / (sigma * Real.sqrt T) -
        sigma * Real.sqrt T / 2)) * (K * Real.exp (-r * T))) * hee

end Connect

/-- C5.  Put-call parity: for every valid input, the call price minus the
put price at the same parameters is exactly `S − K·e^(−r·T)` over the
real-number embedding. -/
theorem put_call_parity (S K T r sigma : ℝ)
    (hS : 0 < S) (hK : 0 < K) (hT : 0 < T) (hsigma : 0 < sigma) (hr : 0 ≤ r) :
    ∀ c p : ℝ, black_scholes S K T r sigma "call" = Except.ok c →
      black_scholes S K T r sigma "put" = Except.ok p →
      c - p = S - K * Real.exp (-r * T) := by
  intro c p hc hp
  rw [black_scholes_call, Except.ok.injEq] at hc
  rw [black_scholes_put, Except.ok.injEq] at hp
  subst hc
  subst hp
  exact bs_parity S K T r sigma

/-- Witness for C5 at `S = K = T = σ = 1`, `r = 0`. -/
theorem put_call_parity_witness :
    bs_call 1 1 1 0 1 - bs_put 1 1 1 0 1 = 1 - 1 * Real.exp (-0 * 1) :=
  put_call_parity 1 1 1 0 1 (by norm_num) (by norm_num) (by norm_num)
    (by norm_num) (by norm_num) (bs_call 1 1 1 0 1) (bs_put 1 1 1 0 1)
    (black_scholes_call 1 1 1 0 1) (black_scholes_put 1 1 1 0 1)

/-- C6.  Non-negativity: for every valid input and both recognized option
types, the price `black_scholes` returns is nonnegative. -/
theorem price_nonneg (S K T r sigma : ℝ)
    (hS : 0 < S) (hK : 0 < K) (hT : 0 < T) (hsigma : 0 < sigma) (hr : 0 ≤ r)
    (ot : String) (hot : ot = "call" ∨ ot = "put") :
    ∀ y : ℝ, black_scholes S K T r sigma ot = Except.ok y → 0 ≤ y := by
  have ha : 0 < sigma * Real.sqrt T := mul_pos hsigma (Real.sqrt_pos.2 hT)
  intro y hy
  rcases hot with h | h <;> subst h
  · rw [black_scholes_call, Except.ok.injEq] at hy
    subst hy
    rw [bs_call_eq_bsAux S K T r sigma hS hK hT hsigma]
    exact mul_nonneg (mul_nonneg hK.le (Real.exp_pos _).le) (bsAux_nonneg ha _)
  · rw [black_scholes_put, Except.ok.injEq] at hy
    subst hy
    rw [bs_put_eq_bsAux S K T r sigma hS hK hT hsigma]
    exact mul_nonneg hS.le (bsAux_nonneg ha _)

/-- Witness for C6 at `S = K = T = σ = 1`, `r = 0`, type `call`. -/
theorem price_nonneg_witness : 0 ≤ bs_call 1 1 1 0 1 :=
  price_nonneg 1 1 1 0 1 (by norm_num) (by norm_num) (by norm_num)
    (by norm_num) (by norm_num) "call" (Or.inl rfl) (bs_call 1 1 1 0 1)
    (black_scholes_call 1 1 1 0 1)

/-- C7.  Monotonicity in the spot price: with strike, maturity, rate and
volatility fixed and `0 < S1 ≤ S2`, the call price at `S1` is at most the
call price at `S2`, and the put price at `S1` is at least the put price at
`S2`. -/
theorem price_monotone_in_spot (K T r sigma S1 S2 : ℝ)
    (hK : 0 < K) (hT : 0 < T) (hr : 0 ≤ r) (hsigma : 0 < sigma)
    (hS1 : 0 < S1) (hS12 : S1 ≤ S2) :
    (∀ c1 c2 : ℝ, black_scholes S1 K T r sigma "call" = Except.ok c1 →
      black_scholes S2 K T r sigma "call" = Except.ok c2 → c1 ≤ c2) ∧
    (∀ p1 p2 : ℝ, black_scholes S1 K T r sigma "put" = Except.ok p1 →
      black_scholes S2 K T r sigma "put" = Except.ok p2 → p2 ≤ p1) := by
  have hS2 : 0 < S2 := lt_of_lt_of_le hS1 hS12
  have ha : 0 < sigma * Real.sqrt T := mul_pos hsigma (Real.sqrt_pos.2 hT)
  have hm : Real.log (S1 / K) + r * T ≤ Real.log (S2 / K) + r * T := by
    have := Real.log_le_log (div_pos hS1 hK) ((div_le_div_right hK).2 hS12)
    linarith
  have hKE : 0 < K * Real.exp (-r * T) := mul_pos hK (Real.exp_pos _)
  constructor
  · intro c1 c2 hc1 hc2
    rw [black_scholes_call, Except.ok.injEq] at hc1
    rw [black_scholes_call, Except.ok.injEq] at hc2
    subst hc1
    subst hc2
    rw [bs_call_eq_bsAux S1 K T r sigma hS1 hK hT hsigma,
      bs_call_eq_bsAux S2 K T r sigma hS2 hK hT hsigma]
    exact mul_le_mul_of_nonneg_left (monotone_bsAux ha.ne' hm) hKE.le
  · intro p1 p2 hp1 hp2
    rw [black_scholes_put, Except.ok.injEq] at hp1
    rw [black_scholes_put, Except.ok.injEq] at hp2
    subst hp1
    subst hp2
    rw [bs_put_eq S1 K T r sigma hS1 hK hT hsigma,
      bs_put_eq S2 K T r sigma hS2 hK hT hsigma]
    have hanti : bsAux (sigma * Real.sqrt T) (Real.log (S2 / K) + r * T) -
        Real.exp (Real.log (S2 / K) + r * T) ≤
        bsAux (sigma * Real.sqrt T) (Real.log (S1 / K) + r * T) -
          Real.exp (Real.log (S1 / K) + r * T) :=
      antitone_bsAux_sub_exp ha.ne' hm
    have hmul := mul_le_mul_of_nonneg_left hanti hKE.le
    nlinarith [hmul]

/-- Witness for C7 at `K = T = σ = 1`, `r = 0`, `S1 = 1`, `S2 = 2`. -/
theorem price_monotone_in_spot_witness :
    bs_call 1 1 1 0 1 ≤ bs_call 2 1 1 0 1 ∧
    bs_put 2 1 1 0 1 ≤ bs_put 1 1 1 0 1 :=
  ⟨(price_monotone_in_spot 1 1 0 1 1 2 (by norm_num) (by norm_num)
      (by norm_num) (by norm_num) (by norm_num) (by norm_num)).1
    (bs_call 1 1 1 0 1) (bs_call 2 1 1 0 1)
    (black_scholes_call 1 1 1 0 1) (black_scholes_call 2 1 1 0 1),
   (price_monotone_in_spot 1 1 0 1 1 2 (by norm_num) (by norm_num)
      (by norm_num) (by norm_num) (by norm_num) (by norm_num)).2
    (bs_put 1 1 1 0 1) (bs_put 2 1 1 0 1)
    (black_scholes_put 1 1 1 0 1) (black_scholes_put 2 1 1 0 1)⟩

/-- C10.  Upper bounds: for every valid input, the call price is at most `S`
and the put price is at most `K·e^(−r·T)`. -/
theorem price_upper_bounds (S K T r sigma : ℝ)
    (hS : 0 < S) (hK : 0 < K) (hT : 0 < T) (hsigma : 0 < sigma) (hr : 0 ≤ r) :
    ∀ c p : ℝ, black_scholes S K T r sigma "call" = Except.ok c →
      black_scholes S K T r sigma "put" = Except.ok p →
      c ≤ S ∧ p ≤ K * Real.exp (-r * T) := by
  intro c p hc hp
  rw [black_scholes_call, Except.ok.injEq] at hc
  rw [black_scholes_put, Except.ok.injEq] at hp
  subst hc
  subst hp
  constructor
  · unfold bs_call
    have h1 := normCdf_le_one (d1 S K T r sigma)
    have h2 := normCdf_nonneg (d2 S K T r sigma)
    have h3 := (Real.exp_pos (-r * T)).le
    nlinarith [mul_nonneg (mul_nonneg hK.le h3) h2,
      mul_nonneg hS.le (sub_nonneg.mpr h1)]
  · unfold bs_put
    have h1 := normCdf_le_one (-(d2 S K T r sigma))
    have h2 := normCdf_nonneg (-(d1 S K T r sigma))
    have h3 := (Real.exp_pos (-r * T)).le
    nlinarith [mul_nonneg hS.le h2,
      mul_nonneg (mul_nonneg hK.le h3) (sub_nonneg.mpr h1)]

/-- Witness for C10 at `S = K = T = σ = 1`, `r = 0`. -/
theorem price_upper_bounds_witness :
    bs_call 1 1 1 0 1 ≤ 1 ∧ bs_put 1 1 1 0 1 ≤ 1 * Real.exp (-0 * 1) :=
  price_upper_bounds 1 1 1 0 1 (by norm_num) (by norm_num) (by norm_num)
    (by norm_num) (by norm_num) (bs_call 1 1 1 0 1) (bs_put 1 1 1 0 1)
    (black_scholes_call 1 1 1 0 1) (black_scholes_put 1 1 1 0 1)

/-- Witness for C8: at the unrecognized option type `swap`, `black_scholes`
signals an error. -/
theorem price_error_iff_bad_option_type_witness :
    ∃ e, black_scholes 1 1 1 0 1 "swap" = Except.error e :=
  (price_error_iff_bad_option_type 1 1 1 0 1 "swap").1.mpr (by simp)
